import Mathlib

/-!
Verification of the Smart Proxy core of the metamcp repository.

The development shallowly embeds the TypeScript sources:
* `SmartMCPProxy` (src/unnamed/part_000): tool indexing, discovery
  (keyword and embeddings paths), the dynamic-limit selector, the
  description-truncation engine, and `execute` dispatch;
* `EmbeddingClient` and `ToolEmbeddingsRepository`
  (src/apps/backend/src/lib/metamcp/embedding-client.ts).

JavaScript strings are modelled as `List Char`, JavaScript numbers as `ℚ`
(all score arithmetic in the source is plain arithmetic on finite floats),
JavaScript integers as `ℤ`, and fallible or possibly diverging code returns
`Option`/`Except`.  The `while (true)` loop of `truncateForEmbedding` is
modelled with explicit fuel, `none` standing for divergence within the
given fuel; the fuel `description.length + 1` is proved sufficient whenever
the delimiter is non-empty.
-/

/-- The two-character separator `"::"` used throughout the proxy to build
`uniqueId = serverName + "::" + originalName`. -/
def dcolon : List Char := [':', ':']

/-- Model of JavaScript `String.prototype.indexOf(sep)` restricted to a
non-empty search term: index of the first occurrence of `sep` in `s`,
`none` when there is no occurrence.  (The empty-term case is handled
separately in `jsIndexOfFrom`.) -/
def firstOcc (sep : List Char) : List Char → Option ℕ
  | [] => none
  | c :: rest =>
    if sep.isPrefixOf (c :: rest) then some 0
    else (firstOcc sep rest).map (· + 1)

/-- Model of JavaScript `s.indexOf(sep, i)`: first occurrence of `sep` at
position `≥ i`; for the empty search term JavaScript returns
`min i s.length`. -/
def jsIndexOfFrom (s sep : List Char) (i : ℕ) : Option ℕ :=
  if sep = [] then some (min i s.length)
  else (firstOcc sep (s.drop i)).map (· + i)

/-- `true` when `needle` occurs as a contiguous substring of `hay`
(the observable content of JavaScript `String.prototype.includes`). -/
def containsSubB (needle hay : List Char) : Bool :=
  (firstOcc needle hay).isSome

/-- The whitespace characters removed by JavaScript
`String.prototype.trim` (ASCII portion, which is all that the proxy's
tool descriptions use). -/
def isJsWhitespace (c : Char) : Bool :=
  c = ' ' || c = '\t' || c = '\n' || c = '\r' || c = '\x0b' || c = '\x0c'

/-- Model of JavaScript `String.prototype.trim`. -/
def jsTrim (s : List Char) : List Char :=
  ((s.dropWhile isJsWhitespace).reverse.dropWhile isJsWhitespace).reverse

/-- One step of JavaScript `String.prototype.split(sep)` for a non-empty
separator, with fuel (the scan consumes at least one character per
produced part, so `s.length + 1` fuel always suffices). -/
def jsSplitGo (sep : List Char) : ℕ → List Char → List (List Char)
  | 0, s => [s]
  | fuel + 1, s =>
    match firstOcc sep s with
    | none => [s]
    | some j => s.take j :: jsSplitGo sep fuel (s.drop (j + sep.length))

/-- Model of JavaScript `s.split(sep)` for a non-empty separator (the
proxy only ever splits on `"::"`). -/
def jsSplit (sep s : List Char) : List (List Char) :=
  if sep = [] then [s] else jsSplitGo sep (s.length + 1) s

/-- A JSON value, used to model tool input schemas and the JSON arrays
serialized by `discover`.  Object fields are kept in insertion order,
exactly as `JSON.stringify` emits them. -/
inductive JVal
  | jnull
  | jbool (b : Bool)
  | jnum (q : ℚ)
  | jstr (s : List Char)
  | jarr (elems : List JVal)
  | jobj (fields : List (String × JVal))

/-- Property access on a modelled JSON object. -/
def jlookup (fields : List (String × JVal)) (k : String) : Option JVal :=
  (fields.find? (fun p => decide (p.1 = k))).map Prod.snd

/-! ## Dynamic-limit selector (`SmartMCPProxy.applyDynamicLimit`) -/

/-- Configuration of the dynamic-limit selector (part_000 lines 19-23).
`maxResults` is a JavaScript integer, modelled as `ℤ`. -/
structure DynamicLimitConfig where
  maxResults : ℤ
  dropThreshold : ℚ
  minScore : ℚ

/-- `DEFAULT_DYNAMIC_CONFIG` (part_000 lines 25-29). -/
def DEFAULT_DYNAMIC_CONFIG : DynamicLimitConfig :=
  { maxResults := 10, dropThreshold := 30 / 100, minScore := 3 / 10 }

/-- The loop body of `applyDynamicLimit` (part_000 lines 289-321).
`count` is `filtered.length` at the top of the iteration and `prev` is the
score of the previous result (`none` on the first iteration).  Every
iteration either breaks out of the loop (returning `[]` here) or accepts
the current element, so the accepted list is exactly a prefix. -/
def adlGo {α : Type} (score : α → ℚ) (cfg : DynamicLimitConfig) :
    ℕ → Option ℚ → List α → List α
  | _, _, [] => []
  | count, prev, x :: rest =>
    if (count : ℤ) ≥ cfg.maxResults then []
    else if score x < cfg.minScore then []
    else
      match prev with
      | none => x :: adlGo score cfg (count + 1) (some (score x)) rest
      | some p =>
        if (p - score x) / p > cfg.dropThreshold then []
        else x :: adlGo score cfg (count + 1) (some (score x)) rest

/-- `SmartMCPProxy.applyDynamicLimit` (part_000 lines 281-326), generic in
the element type exactly as the TypeScript generic `<T extends { score:
number }>`. -/
def applyDynamicLimitG {α : Type} (score : α → ℚ) (cfg : DynamicLimitConfig)
    (results : List α) : List α :=
  adlGo score cfg 0 none results

/-- `applyDynamicLimit` specialised to bare score lists. -/
def applyDynamicLimit (cfg : DynamicLimitConfig) (results : List ℚ) : List ℚ :=
  applyDynamicLimitG id cfg results

/-! ## Truncation engine (`SmartMCPProxy.truncateForEmbedding`) -/

/-- Truncation configuration (part_000 lines 31-36).  `occurrence` and
`minLength` are JavaScript integers, modelled as `ℤ`. -/
structure EmbeddingTruncationConfig where
  delimiter : List Char
  occurrence : ℤ
  minLength : ℤ
  enabled : Bool

/-- `DEFAULT_TRUNCATION_CONFIG` (part_000 lines 38-43). -/
def DEFAULT_TRUNCATION_CONFIG : EmbeddingTruncationConfig :=
  { delimiter := ['\n'], occurrence := 1, minLength := 5, enabled := true }

/-- The `while (true)` loop of `truncateForEmbedding` (part_000 lines
353-377), with fuel; `none` models divergence within the given fuel.
`currentOccurrence` is incremented before the occurrence test, exactly as
in the source. -/
def truncGo (delimiter : List Char) (startOccurrence minLength : ℤ)
    (description : List Char) : ℕ → ℤ → ℕ → Option (List Char)
  | 0, _, _ => none
  | fuel + 1, currentOccurrence, searchIndex =>
    match jsIndexOfFrom description delimiter searchIndex with
    | none => some description
    | some foundIndex =>
      if currentOccurrence + 1 ≥ startOccurrence then
        let truncated := jsTrim (description.take foundIndex)
        if (truncated.length : ℤ) ≥ minLength then some truncated
        else truncGo delimiter startOccurrence minLength description fuel
          (currentOccurrence + 1) (foundIndex + delimiter.length)
      else truncGo delimiter startOccurrence minLength description fuel
        (currentOccurrence + 1) (foundIndex + delimiter.length)

/-- `SmartMCPProxy.truncateForEmbedding` (part_000 lines 334-378).  An
absent (`undefined`) description and the empty description both take the
`if (!description) return ''` branch, which this entry point models by the
empty list.  The loop is run with fuel `description.length + 1`. -/
def truncateForEmbedding (cfg : EmbeddingTruncationConfig)
    (description : List Char) : Option (List Char) :=
  if description = [] then some []
  else if cfg.enabled = false then some description
  else if cfg.occurrence ≤ 0 then some description
  else truncGo cfg.delimiter cfg.occurrence cfg.minLength description
    (description.length + 1) 0 0

/-- The successive (non-overlapping, left-to-right) occurrence positions
of `delimiter` in `desc` starting from position `i`, with the same fuel
discipline as `truncGo`.  Spec-side companion used to state claim C7. -/
def occPosGo (delimiter desc : List Char) : ℕ → ℕ → List ℕ
  | 0, _ => []
  | fuel + 1, i =>
    match jsIndexOfFrom desc delimiter i with
    | none => []
    | some j => j :: occPosGo delimiter desc fuel (j + delimiter.length)

/-- All scanned occurrence positions of `delimiter` in `desc`. -/
def occPositions (delimiter desc : List Char) : List ℕ :=
  occPosGo delimiter desc (desc.length + 1) 0

/-- Spec-side selection rule of §4.3 / claim C7: walk the occurrence
positions in order (the occurrence counter starts at `occSoFar`); the
first position that is at or after the configured occurrence and whose
whitespace-trimmed prefix has length `≥ minLength` wins; if none does, the
original description is returned. -/
def specGo (startOccurrence minLength : ℤ) (desc : List Char) :
    ℤ → List ℕ → List Char
  | _, [] => desc
  | occSoFar, p :: rest =>
    if occSoFar + 1 ≥ startOccurrence ∧ ((jsTrim (desc.take p)).length : ℤ) ≥ minLength
    then jsTrim (desc.take p)
    else specGo startOccurrence minLength desc (occSoFar + 1) rest

/-- The truncation result as described by the specification text: verbatim
description when disabled, otherwise the first qualifying trimmed prefix,
defaulting to the full description. -/
def truncSpec (cfg : EmbeddingTruncationConfig) (desc : List Char) : List Char :=
  if cfg.enabled = false then desc
  else specGo cfg.occurrence cfg.minLength desc 0 (occPositions cfg.delimiter desc)

/-! ## Proxy data model (`SmartMCPProxy` state) -/

/-- A downstream tool descriptor (`Tool` from the protocol SDK): the parts
the proxy reads are the optional human description and the JSON input
schema. -/
structure MTool where
  description : Option (List Char)
  inputSchema : JVal

/-- A downstream connection handle, opaque to the proxy; two handles are
the same connection exactly when their identifiers coincide. -/
structure ConnectedClient where
  cid : ℕ
deriving DecidableEq

/-- A value of the in-memory `this.tools` map (part_000 line 52):
`{ tool, client, toolUuid }`. -/
structure ToolEntry where
  tool : MTool
  client : ConnectedClient
  toolUuid : List Char

/-- One element of the batch passed to `indexTools` (part_000 lines
139-145). -/
structure BindTool where
  tool : MTool
  client : ConnectedClient
  serverName : List Char
  originalName : List Char
  toolUuid : List Char

/-- One document pushed into MiniSearch by `indexTools` (part_000 lines
160-167): indexed and stored fields. -/
structure IndexDoc where
  id : List Char
  toolId : List Char
  method : List Char
  description : Option (List Char)
  parameterDescriptions : List Char
  toolUuid : List Char

/-- `Map.prototype.set`: overwrite in place when the key is present
(keeping its position), append otherwise. -/
def mapSet {α : Type} (m : List (List Char × α)) (k : List Char) (v : α) :
    List (List Char × α) :=
  if m.any (fun p => decide (p.1 = k)) then
    m.map (fun p => if p.1 = k then (k, v) else p)
  else m ++ [(k, v)]

/-- `Map.prototype.get`. -/
def mapGet {α : Type} (m : List (List Char × α)) (k : List Char) : Option α :=
  (m.find? (fun p => decide (p.1 = k))).map Prod.snd

/-- `extractParameterDescriptions` (part_000 lines 180-191): concatenate
the `description` of every property of the input schema, newline-joined;
empty when the schema is absent or has no `properties`. -/
def extractParameterDescriptions (parameters : JVal) : List Char :=
  match parameters with
  | JVal.jobj fields =>
    match jlookup fields "properties" with
    | some (JVal.jobj props) =>
      List.intercalate ['\n'] (props.filterMap (fun p =>
        match p.2 with
        | JVal.jobj pf =>
          match jlookup pf "description" with
          | some (JVal.jstr d) => some d
          | _ => none
        | _ => none))
    | _ => []
  | _ => []

/-- The `uniqueId` of a bound tool (part_000 line 153). -/
def uniqueIdOf (b : BindTool) : List Char :=
  b.serverName ++ dcolon ++ b.originalName

/-- The in-memory tool table rebuilt by `indexTools` (part_000 lines
149-156): cleared, then one `Map.set` per batch element in order. -/
def toolsTableOf (binds : List BindTool) : List (List Char × ToolEntry) :=
  binds.foldl (fun m b => mapSet m (uniqueIdOf b) ⟨b.tool, b.client, b.toolUuid⟩) []

/-- The `indexableTools` array built by `indexTools` (part_000 lines
158-167), also the documents MiniSearch indexes. -/
def indexDocsOf (binds : List BindTool) : List IndexDoc :=
  binds.map (fun b =>
    ⟨uniqueIdOf b, b.serverName, b.originalName, b.tool.description,
     extractParameterDescriptions b.tool.inputSchema, b.toolUuid⟩)

/-! ## Discovery pipelines -/

/-- A result object of the embeddings path before serialization (part_000
lines 440-446): `{toolId, method, description, inputSchema, score}`. -/
structure ScoredDescriptor where
  toolId : List Char
  method : List Char
  description : Option (List Char)
  inputSchema : JVal
  score : ℚ

/-- A result object of the keyword path after the score field is removed
(part_000 line 501). -/
structure PlainDescriptor where
  toolId : List Char
  method : List Char
  description : Option (List Char)
  inputSchema : JVal

/-- The `mappedResults` construction of `discoverWithEmbeddings`
(part_000 lines 426-447), paired with the in-memory entry (`toolData` in
the source) that produced each descriptor, so that theorems can speak
about the producing entry.  For each `(tool_uuid, similarity)` pair
returned by the vector store, the first table entry with that UUID is
located; absent UUIDs are dropped (`filter(Boolean)`); `uniqueId` is split
on `"::"` and destructured into `[toolId, method]` (the source reads
`split[0]` and `split[1]`; every key produced by `indexTools` contains the
separator, so both parts exist there). -/
def vectorMappedPairs (tools : List (List Char × ToolEntry))
    (similarTools : List (List Char × ℚ)) : List (ScoredDescriptor × ToolEntry) :=
  similarTools.filterMap (fun st =>
    match tools.find? (fun p => decide (p.2.toolUuid = st.1)) with
    | none => none
    | some toolEntry =>
      some (⟨(jsSplit dcolon toolEntry.1).getD 0 [],
             (jsSplit dcolon toolEntry.1).getD 1 [],
             toolEntry.2.tool.description, toolEntry.2.tool.inputSchema, st.2⟩,
            toolEntry.2))

/-- The result list of `discoverWithEmbeddings` that is JSON-encoded
(part_000 lines 449-462): dynamic limiting applied to `mappedResults`,
with the `score` field still present. -/
def discoverWithEmbeddingsResult (tools : List (List Char × ToolEntry))
    (similarTools : List (List Char × ℚ)) (cfg : DynamicLimitConfig) :
    List ScoredDescriptor :=
  applyDynamicLimitG ScoredDescriptor.score cfg
    ((vectorMappedPairs tools similarTools).map Prod.fst)

/-- `maxScore` of `discoverWithKeywords` (part_000 line 481): the first
raw score, or 1 when there are no results. -/
def keywordMaxScore (searchResults : List (IndexDoc × ℚ)) : ℚ :=
  match searchResults with
  | [] => 1
  | r :: _ => r.2

/-- The `resultsWithNormalizedScores` construction of
`discoverWithKeywords` (part_000 lines 482-495), paired with the producing
entry.  The engine's raw results are a list of (stored document, raw
score) pairs; documents whose id is no longer in the tool table are
dropped. -/
def keywordMappedPairs (tools : List (List Char × ToolEntry))
    (searchResults : List (IndexDoc × ℚ)) : List (ScoredDescriptor × ToolEntry) :=
  searchResults.filterMap (fun r =>
    match mapGet tools r.1.id with
    | none => none
    | some toolData =>
      some (⟨r.1.toolId, r.1.method, r.1.description, toolData.tool.inputSchema,
             r.2 / keywordMaxScore searchResults⟩, toolData))

/-- The final result list of `discoverWithKeywords` (part_000 lines
497-501): dynamic limiting, then removal of the `score` field. -/
def discoverWithKeywordsResult (tools : List (List Char × ToolEntry))
    (searchResults : List (IndexDoc × ℚ)) (cfg : DynamicLimitConfig) :
    List PlainDescriptor :=
  (applyDynamicLimitG ScoredDescriptor.score cfg
    ((keywordMappedPairs tools searchResults).map Prod.fst)).map
    (fun d => ⟨d.toolId, d.method, d.description, d.inputSchema⟩)

/-- `JSON.stringify` field list of a `{toolId, method, description,
inputSchema, ...}` object: a property holding `undefined` (an absent
description) is omitted from the serialized object. -/
def encOptDescription (d : Option (List Char)) : List (String × JVal) :=
  match d with
  | none => []
  | some s => [("description", JVal.jstr s)]

/-- Serialized form of an embeddings-path result object, fields in
insertion order. -/
def encScoredDescriptor (d : ScoredDescriptor) : JVal :=
  JVal.jobj ([("toolId", JVal.jstr d.toolId), ("method", JVal.jstr d.method)]
    ++ encOptDescription d.description
    ++ [("inputSchema", d.inputSchema), ("score", JVal.jnum d.score)])

/-- Serialized form of a keyword-path result object after score removal,
fields in insertion order. -/
def encPlainDescriptor (d : PlainDescriptor) : JVal :=
  JVal.jobj ([("toolId", JVal.jstr d.toolId), ("method", JVal.jstr d.method)]
    ++ encOptDescription d.description
    ++ [("inputSchema", d.inputSchema)])

/-- The JSON array serialized into the text content by
`discoverWithEmbeddings` (part_000 line 459). -/
def vectorResponseJson (tools : List (List Char × ToolEntry))
    (similarTools : List (List Char × ℚ)) (cfg : DynamicLimitConfig) : JVal :=
  JVal.jarr ((discoverWithEmbeddingsResult tools similarTools cfg).map encScoredDescriptor)

/-- The JSON array serialized into the text content by
`discoverWithKeywords` (part_000 line 507). -/
def keywordResponseJson (tools : List (List Char × ToolEntry))
    (searchResults : List (IndexDoc × ℚ)) (cfg : DynamicLimitConfig) : JVal :=
  JVal.jarr ((discoverWithKeywordsResult tools searchResults cfg).map encPlainDescriptor)

/-- The field-name lists of the objects of a serialized JSON array. -/
def fieldNamesOfJson (v : JVal) : List (List String) :=
  match v with
  | JVal.jarr elems =>
    elems.map (fun e =>
      match e with
      | JVal.jobj fields => fields.map Prod.fst
      | _ => [])
  | _ => []

/-! ## `execute` dispatch -/

/-- The forwarded downstream call built by `execute` (part_000 lines
525-528): `callTool({name: method, arguments: args})` on the owning
connection; the protocol result is returned verbatim, so the call record
identifies the outcome. -/
structure CallReq where
  client : ConnectedClient
  name : List Char
  arguments : JVal

/-- The error message thrown by `execute` for an unknown pair (part_000
line 518). -/
def execNotFoundMessage (toolId method : List Char) : List Char :=
  "Tool ".data ++ method ++ " on server ".data ++ toolId ++
    " not found. Use \x27discover\x27 to find available tools.".data

/-- `SmartMCPProxy.execute` (part_000 lines 513-529), with the tool table
passed through state-style: the source never writes `this.tools` (or the
lexical index) here, so the table is returned unchanged. -/
def executeS (tools : List (List Char × ToolEntry)) (toolId method : List Char)
    (args : JVal) : List (List Char × ToolEntry) × Except (List Char) CallReq :=
  match mapGet tools (toolId ++ dcolon ++ method) with
  | none => (tools, Except.error (execNotFoundMessage toolId method))
  | some toolData => (tools, Except.ok ⟨toolData.client, method, args⟩)

/-! ## Discover mode selection and fallback (`SmartMCPProxy.discover`) -/

/-- `SearchMode` (part_000 lines 45-48). -/
inductive SearchMode
  | keyword
  | embeddings
deriving DecidableEq

/-- The session state read by the mode check of `discover` (part_000 line
393): the current mode and whether `this.embeddingClient` and
`this.namespaceUuid` are set. -/
structure ProxyModeState where
  searchMode : SearchMode
  hasEmbeddingClient : Bool
  hasNamespaceUuid : Bool
deriving DecidableEq

/-- Which backend computed a `discover` response. -/
inductive DiscoverBackend
  | vector
  | lexical
deriving DecidableEq

/-- The condition of part_000 line 393 under which `discover` attempts
the embedding endpoint. -/
def discoverAttemptsEmbedding (st : ProxyModeState) : Bool :=
  decide (st.searchMode = SearchMode.embeddings) && st.hasEmbeddingClient
    && st.hasNamespaceUuid

/-- The control flow of `discover` (part_000 lines 392-404) as a function
of whether the embedding search succeeds: on failure the `catch` block
logs and falls through to `discoverWithKeywords`; no field of `this` is
assigned, so the session state is returned unchanged in every case. -/
def discoverStep (st : ProxyModeState) (embeddingSearchSucceeds : Bool) :
    DiscoverBackend × ProxyModeState :=
  if discoverAttemptsEmbedding st then
    if embeddingSearchSucceeds then (DiscoverBackend.vector, st)
    else (DiscoverBackend.lexical, st)
  else (DiscoverBackend.lexical, st)

/-- The `catch` block of `generateAndStoreEmbeddings` (part_000 lines
270-274), run at bind time: any failure downgrades the session to keyword
mode (`this.searchMode = SearchMode.KEYWORD`). -/
def generateAndStoreEmbeddingsStep (st : ProxyModeState) (succeeds : Bool) :
    ProxyModeState :=
  if succeeds then st else { st with searchMode := SearchMode.keyword }

/-! ## Embedding repository (`ToolEmbeddingsRepository`) -/

/-- A persisted embedding row, restricted to the columns read by
`getToolsNeedingEmbeddings` (embedding-client.ts lines 309-363). -/
structure StoredEmbeddingRow where
  tool_uuid : List Char
  namespace_uuid : List Char
  model_name : List Char
  embedding_text : List Char

/-- Lookup in a JavaScript `Map` built with `new Map(pairs)`: with
duplicate keys the later pair wins. -/
def lastWinsLookup (pairs : List (List Char × List Char)) (k : List Char) :
    Option (List Char) :=
  (pairs.reverse.find? (fun p => decide (p.1 = k))).map Prod.snd

/-- `ToolEmbeddingsRepository.getToolsNeedingEmbeddings` (embedding-
client.ts lines 309-363).  `dbRows` models the `tool_embeddings` table;
the select filters by namespace, model and `inArray(tool_uuid, toolUuids)`.
The needs-regeneration test is the source's: `!storedText` — which is
`true` both for an absent row and for a stored empty string — or
`storedText !== tool.embeddingText`. -/
def getToolsNeedingEmbeddings (tools : List (List Char × List Char))
    (namespaceUuid modelName : List Char) (dbRows : List StoredEmbeddingRow) :
    List (List Char) :=
  if tools = [] then []
  else
    let toolUuids := tools.map Prod.fst
    let existing := dbRows.filter (fun r =>
      decide (r.namespace_uuid = namespaceUuid) && decide (r.model_name = modelName)
        && decide (r.tool_uuid ∈ toolUuids))
    let existingMap := existing.map (fun r => (r.tool_uuid, r.embedding_text))
    (tools.filter (fun t =>
      match lastWinsLookup existingMap t.1 with
      | none => true
      | some storedText => decide (storedText = []) || decide (storedText ≠ t.2))).map
      Prod.fst

/-- The unique stored row for `(tool_uuid, namespace_uuid, model_name)`
(invariant E1 of §3 guarantees at most one), as the specification's
`toolsNeedingEmbeddings` contract reads it. -/
def specStoredText (dbRows : List StoredEmbeddingRow)
    (namespaceUuid modelName u : List Char) : Option (List Char) :=
  (dbRows.find? (fun r =>
    decide (r.namespace_uuid = namespaceUuid) && decide (r.model_name = modelName)
      && decide (r.tool_uuid = u))).map StoredEmbeddingRow.embedding_text

/-- Claim C5's criterion, read verbatim from the specification: a tool
needs regeneration exactly when it has no stored row or the stored text
differs byte-for-byte from the requested text. -/
def claimNeedsRegeneration (dbRows : List StoredEmbeddingRow)
    (namespaceUuid modelName u text : List Char) : Bool :=
  match specStoredText dbRows namespaceUuid modelName u with
  | none => true
  | some stored => decide (stored ≠ text)

/-- The criterion the source actually implements: additionally treats a
stored empty `embedding_text` as missing (`!storedText`). -/
def codeNeedsRegeneration (dbRows : List StoredEmbeddingRow)
    (namespaceUuid modelName u text : List Char) : Bool :=
  match specStoredText dbRows namespaceUuid modelName u with
  | none => true
  | some stored => decide (stored = []) || decide (stored ≠ text)

/-! ## Embedding client (`EmbeddingClient.generateEmbeddings`) -/

/-- One element of the response `data` array (embedding-client.ts lines
7-11). -/
structure EmbDataEntry where
  embedding : List ℚ
  index : ℤ

/-- What the embedding service does with one request: either a non-2xx
HTTP response or a parsed body with a `data` array (its order is chosen by
the server). -/
inductive EmbServiceResp
  | httpError (status : ℕ) (statusText body : List Char)
  | respOk (data : List EmbDataEntry)

/-- The error outcomes of `generateEmbeddings`. -/
inductive EmbClientError
  | batchTooLarge
  | apiError (status : ℕ) (statusText body : List Char)

/-- `EmbeddingClient.generateEmbeddings` (embedding-client.ts lines
38-85) as a function of the service's behaviour: empty input returns empty
(before any request is made — the result ignores `resp`); more than 100
texts is rejected; a non-ok response raises; otherwise the `data` entries
are sorted by their `index` field and the vectors extracted. -/
def generateEmbeddings (texts : List (List Char)) (resp : EmbServiceResp) :
    Except EmbClientError (List (List ℚ)) :=
  if texts.length = 0 then Except.ok []
  else if texts.length > 100 then Except.error EmbClientError.batchTooLarge
  else
    match resp with
    | EmbServiceResp.httpError st stx body =>
      Except.error (EmbClientError.apiError st stx body)
    | EmbServiceResp.respOk data =>
      Except.ok ((data.mergeSort (fun a b => decide (a.index ≤ b.index))).map
        EmbDataEntry.embedding)

/-! ## Spec-side statement of the dynamic-limit walk (claim C4) -/

/-- Claim C4's walk for positions `i ≥ 1`: stop as soon as the accepted
count equals `maxResults`, the score falls below `minScore`, or the
relative drop from the previous score exceeds `dropThreshold`. -/
def claimGo (cfg : DynamicLimitConfig) : ℕ → ℚ → List ℚ → List ℚ
  | _, _, [] => []
  | count, prev, s :: rest =>
    if (count : ℤ) = cfg.maxResults then []
    else if s < cfg.minScore then []
    else if (prev - s) / prev > cfg.dropThreshold then []
    else s :: claimGo cfg (count + 1) s rest

/-- Claim C4's full rule: accept result 0 exactly when its score is
`≥ minScore`, then walk with `claimGo`. -/
def claimPrefix (cfg : DynamicLimitConfig) : List ℚ → List ℚ
  | [] => []
  | s :: rest => if s < cfg.minScore then [] else s :: claimGo cfg 1 s rest

/-! ## Lemmas about the string primitives -/

theorem isPrefixOf_length {l s : List Char} (h : l.isPrefixOf s = true) :
    l.length ≤ s.length := by
  induction l generalizing s with
  | nil => simp
  | cons a as ih =>
    cases s with
    | nil => simp [List.isPrefixOf] at h
    | cons b bs =>
      simp only [List.isPrefixOf, Bool.and_eq_true] at h
      simp only [List.length_cons]
      exact Nat.succ_le_succ (ih h.2)

theorem isPrefixOf_self_append (l t : List Char) : l.isPrefixOf (l ++ t) = true := by
  induction l with
  | nil => simp [List.isPrefixOf]
  | cons a as ih =>
    simp only [List.cons_append, List.isPrefixOf, Bool.and_eq_true]
    exact ⟨by simp, ih⟩

theorem firstOcc_some_le {sep s : List Char} {j : ℕ}
    (h : firstOcc sep s = some j) : j + sep.length ≤ s.length := by
  induction s generalizing j with
  | nil => simp [firstOcc] at h
  | cons c rest ih =>
    by_cases hp : sep.isPrefixOf (c :: rest) = true
    · simp only [firstOcc, hp, if_pos] at h
      cases h
      simpa using isPrefixOf_length hp
    · simp only [firstOcc, hp, if_neg, Bool.false_eq_true, not_false_iff,
        Option.map_eq_some'] at h
      obtain ⟨j', hj', rfl⟩ := h
      have := ih hj'
      simp only [List.length_cons]
      omega

theorem firstOcc_dcolon_eq_none {t : List Char} (h : ':' ∉ t) :
    firstOcc dcolon t = none := by
  induction t with
  | nil => rfl
  | cons c rest ih =>
    have hc : c ≠ ':' := by
      intro hc; exact h (hc ▸ List.mem_cons_self c rest)
    have hrest : ':' ∉ rest := fun hm => h (List.mem_cons_of_mem _ hm)
    have hp : dcolon.isPrefixOf (c :: rest) = false := by
      simp [dcolon, List.isPrefixOf]
      intro hc'
      exact absurd hc'.symm hc
    simp [firstOcc, hp, ih hrest]

theorem firstOcc_dcolon_append {s t : List Char} (hs : ':' ∉ s) :
    firstOcc dcolon (s ++ dcolon ++ t) = some s.length := by
  induction s with
  | nil =>
    have : dcolon.isPrefixOf (dcolon ++ t) = true := isPrefixOf_self_append _ _
    simp only [List.nil_append, List.length_nil]
    cases hd : dcolon ++ t with
    | nil => simp [dcolon] at hd
    | cons c cs =>
      simp only [firstOcc]
      rw [← hd]
      simp [this]
  | cons c rest ih =>
    have hc : c ≠ ':' := by
      intro hc; exact hs (hc ▸ List.mem_cons_self c rest)
    have hrest : ':' ∉ rest := fun hm => hs (List.mem_cons_of_mem _ hm)
    have hx : (c :: rest) ++ dcolon ++ t = c :: (rest ++ dcolon ++ t) := by simp
    have hp : dcolon.isPrefixOf (c :: (rest ++ dcolon ++ t)) = false := by
      simp [dcolon, List.isPrefixOf]
      intro hc'
      exact absurd hc'.symm hc
    have hq : dcolon.isPrefixOf (c :: (rest ++ dcolon ++ t)) ≠ true := by
      rw [hp]; exact Bool.false_ne_true
    rw [hx]
    simp only [firstOcc]
    rw [if_neg hq, ih hrest]
    simp

theorem jsSplitGo_of_none {sep t : List Char} (h : firstOcc sep t = none) :
    ∀ fuel, jsSplitGo sep fuel t = [t] := by
  intro fuel
  cases fuel with
  | zero => rfl
  | succ n => simp [jsSplitGo, h]

/-- Splitting `serverName ++ "::" ++ originalName` recovers the two parts
whenever neither contains a colon. -/
theorem jsSplit_dcolon_of_no_colon {s t : List Char} (hs : ':' ∉ s) (ht : ':' ∉ t) :
    jsSplit dcolon (s ++ dcolon ++ t) = [s, t] := by
  have hne : dcolon ≠ [] := by simp [dcolon]
  have htake : (s ++ dcolon ++ t).take s.length = s := by
    rw [List.append_assoc]
    exact List.take_left s (dcolon ++ t)
  have hdrop : (s ++ dcolon ++ t).drop (s.length + dcolon.length) = t := by
    have h2 : s.length + dcolon.length = (s ++ dcolon).length := by simp
    rw [h2]
    exact List.drop_left (s ++ dcolon) t
  unfold jsSplit
  rw [if_neg hne]
  cases hfuel : (s ++ dcolon ++ t).length + 1 with
  | zero => simp at hfuel
  | succ n =>
    simp only [jsSplitGo, firstOcc_dcolon_append hs, htake, hdrop]
    rw [jsSplitGo_of_none (firstOcc_dcolon_eq_none ht)]

theorem firstOcc_self_append {sep : List Char} (y : List Char) (hsep : sep ≠ []) :
    (firstOcc sep (sep ++ y)).isSome = true := by
  cases sep with
  | nil => exact absurd rfl hsep
  | cons a as =>
    have hpre : (a :: as).isPrefixOf ((a :: as) ++ y) = true :=
      isPrefixOf_self_append _ _
    rw [List.cons_append]
    rw [List.cons_append] at hpre
    simp only [firstOcc]
    rw [if_pos hpre]
    rfl

theorem firstOcc_isSome_left_append (sep x t : List Char)
    (h : (firstOcc sep t).isSome = true) :
    (firstOcc sep (x ++ t)).isSome = true := by
  induction x with
  | nil => simpa using h
  | cons c cx ih =>
    rw [List.cons_append]
    simp only [firstOcc]
    by_cases hp : sep.isPrefixOf (c :: (cx ++ t)) = true
    · rw [if_pos hp]; rfl
    · rw [if_neg hp]
      obtain ⟨j, hj⟩ := Option.isSome_iff_exists.mp ih
      rw [hj]
      rfl

theorem containsSubB_of_append_self (pre sep post : List Char) (hsep : sep ≠ []) :
    containsSubB sep (pre ++ (sep ++ post)) = true :=
  firstOcc_isSome_left_append sep pre _ (firstOcc_self_append post hsep)

/-- A string of the shape `before ++ piece ++ after` with non-empty
`before` contains `piece` as a substring (covering the empty piece too). -/
theorem containsSubB_middle (before sep rest : List Char) (hb : before ≠ []) :
    containsSubB sep (before ++ sep ++ rest) = true := by
  by_cases hsep : sep = []
  · subst hsep
    cases before with
    | nil => exact absurd rfl hb
    | cons c cx =>
      simp only [List.append_nil, List.cons_append]
      unfold containsSubB
      simp only [firstOcc]
      rw [if_pos (by simp [List.isPrefixOf])]
      rfl
  · rw [List.append_assoc]
    exact containsSubB_of_append_self before sep rest hsep
/-! ## Lemmas about the tool table -/

theorem mem_mapSet {α : Type} {m : List (List Char × α)} {k : List Char} {v : α}
    {kv : List Char × α} (h : kv ∈ mapSet m k v) : kv ∈ m ∨ kv = (k, v) := by
  unfold mapSet at h
  by_cases hc : m.any (fun p => decide (p.1 = k)) = true
  · rw [if_pos hc] at h
    obtain ⟨p, hp, hpe⟩ := List.mem_map.mp h
    by_cases hk : p.1 = k
    · right
      rw [if_pos hk] at hpe
      exact hpe.symm
    · left
      rw [if_neg hk] at hpe
      exact hpe ▸ hp
  · rw [if_neg hc] at h
    rcases List.mem_append.mp h with h1 | h1
    · exact Or.inl h1
    · right
      simpa using h1

theorem keys_mapSet_nodup {α : Type} {m : List (List Char × α)} {k : List Char}
    {v : α} (h : (m.map Prod.fst).Nodup) :
    (((mapSet m k v).map Prod.fst)).Nodup := by
  unfold mapSet
  by_cases hc : m.any (fun p => decide (p.1 = k)) = true
  · rw [if_pos hc]
    have hmm : ((m.map (fun p => if p.1 = k then (k, v) else p)).map Prod.fst)
        = m.map Prod.fst := by
      rw [List.map_map]
      apply List.map_congr_left
      intro p _
      by_cases hk : p.1 = k
      · simp only [Function.comp_apply, if_pos hk]
        exact hk.symm
      · simp [Function.comp_apply, if_neg hk]
    rw [hmm]
    exact h
  · rw [if_neg hc]
    rw [List.map_append]
    simp only [List.map_cons, List.map_nil]
    apply List.Nodup.append h (List.nodup_singleton k)
    intro a ha hb
    simp only [List.mem_singleton] at hb
    subst hb
    obtain ⟨p, hp, hpe⟩ := List.mem_map.mp ha
    apply hc
    rw [List.any_eq_true]
    exact ⟨p, hp, by simp [hpe]⟩

theorem mapGet_of_mem {α : Type} {m : List (List Char × α)} {k : List Char} {v : α}
    (hmem : (k, v) ∈ m) (hnodup : (m.map Prod.fst).Nodup) : mapGet m k = some v := by
  induction m with
  | nil => simp at hmem
  | cons p rest ih =>
    simp only [List.map_cons, List.nodup_cons] at hnodup
    rcases List.mem_cons.mp hmem with h1 | h1
    · subst h1
      simp [mapGet]
    · have hk : ¬ (p.1 = k) := by
        intro hkk
        exact hnodup.1 (hkk ▸ List.mem_map.mpr ⟨(k, v), h1, rfl⟩)
      have hrest : mapGet rest k = some v := ih h1 hnodup.2
      unfold mapGet at hrest ⊢
      rw [List.find?_cons_of_neg _ (by simpa using hk)]
      exact hrest

theorem toolsTableOf_mem {binds : List BindTool} {kv : List Char × ToolEntry}
    (h : kv ∈ toolsTableOf binds) :
    ∃ b ∈ binds, kv = (uniqueIdOf b, ⟨b.tool, b.client, b.toolUuid⟩) := by
  suffices hgen : ∀ (m : List (List Char × ToolEntry)),
      kv ∈ binds.foldl
        (fun m b => mapSet m (uniqueIdOf b) ⟨b.tool, b.client, b.toolUuid⟩) m →
      kv ∈ m ∨ ∃ b ∈ binds, kv = (uniqueIdOf b, ⟨b.tool, b.client, b.toolUuid⟩) by
    rcases hgen [] h with h1 | h1
    · simp at h1
    · exact h1
  clear h
  induction binds with
  | nil => intro m h; exact Or.inl h
  | cons b rest ih =>
    intro m h
    simp only [List.foldl_cons] at h
    rcases ih _ h with h1 | h1
    · rcases mem_mapSet h1 with h2 | h2
      · exact Or.inl h2
      · exact Or.inr ⟨b, List.mem_cons_self b rest, h2⟩
    · obtain ⟨b', hb', he⟩ := h1
      exact Or.inr ⟨b', List.mem_cons_of_mem _ hb', he⟩

theorem toolsTableOf_keys_nodup (binds : List BindTool) :
    ((toolsTableOf binds).map Prod.fst).Nodup := by
  suffices hgen : ∀ (m : List (List Char × ToolEntry)), (m.map Prod.fst).Nodup →
      ((binds.foldl
        (fun m b => mapSet m (uniqueIdOf b) ⟨b.tool, b.client, b.toolUuid⟩)
        m).map Prod.fst).Nodup by
    exact hgen [] (by simp)
  induction binds with
  | nil => intro m hm; exact hm
  | cons b rest ih =>
    intro m hm
    simp only [List.foldl_cons]
    exact ih _ (keys_mapSet_nodup hm)

/-! ## Lemmas about the dynamic-limit selector -/

theorem mem_of_mem_adlGo {α : Type} {score : α → ℚ} {cfg : DynamicLimitConfig} :
    ∀ {l : List α} {count : ℕ} {prev : Option ℚ} {x : α},
      x ∈ adlGo score cfg count prev l → x ∈ l := by
  intro l
  induction l with
  | nil => intro count prev x h; simp [adlGo] at h
  | cons y rest ih =>
    intro count prev x h
    unfold adlGo at h
    by_cases h1 : (count : ℤ) ≥ cfg.maxResults
    · rw [if_pos h1] at h; simp at h
    · rw [if_neg h1] at h
      by_cases h2 : score y < cfg.minScore
      · rw [if_pos h2] at h; simp at h
      · rw [if_neg h2] at h
        cases prev with
        | none =>
          rcases List.mem_cons.mp h with h3 | h3
          · exact h3 ▸ List.mem_cons_self y rest
          · exact List.mem_cons_of_mem _ (ih h3)
        | some p =>
          dsimp only at h
          by_cases h4 : (p - score y) / p > cfg.dropThreshold
          · rw [if_pos h4] at h; simp at h
          · rw [if_neg h4] at h
            rcases List.mem_cons.mp h with h3 | h3
            · exact h3 ▸ List.mem_cons_self y rest
            · exact List.mem_cons_of_mem _ (ih h3)

theorem mem_of_mem_applyDynamicLimitG {α : Type} {score : α → ℚ}
    {cfg : DynamicLimitConfig} {l : List α} {x : α}
    (h : x ∈ applyDynamicLimitG score cfg l) : x ∈ l :=
  mem_of_mem_adlGo h

theorem adlGo_length_mono {α : Type} {score : α → ℚ} {cfg cfg' : DynamicLimitConfig}
    (hmax : cfg.maxResults ≤ cfg'.maxResults)
    (hmin : cfg'.minScore ≤ cfg.minScore)
    (hdrop : cfg.dropThreshold ≤ cfg'.dropThreshold) :
    ∀ (l : List α) (count : ℕ) (prev : Option ℚ),
      (adlGo score cfg count prev l).length ≤ (adlGo score cfg' count prev l).length := by
  intro l
  induction l with
  | nil => intro count prev; simp [adlGo]
  | cons y rest ih =>
    intro count prev
    unfold adlGo
    by_cases h1 : (count : ℤ) ≥ cfg.maxResults
    · rw [if_pos h1]; simp
    · rw [if_neg h1]
      have h1' : ¬ ((count : ℤ) ≥ cfg'.maxResults) := by omega
      rw [if_neg h1']
      by_cases h2 : score y < cfg.minScore
      · rw [if_pos h2]; simp
      · rw [if_neg h2]
        have h2' : ¬ (score y < cfg'.minScore) := by
          intro hcon
          exact h2 (lt_of_lt_of_le hcon hmin)
        rw [if_neg h2']
        cases prev with
        | none => simpa using ih (count + 1) (some (score y))
        | some p =>
          dsimp only
          by_cases h4 : (p - score y) / p > cfg.dropThreshold
          · rw [if_pos h4]; simp
          · rw [if_neg h4]
            have h4' : ¬ ((p - score y) / p > cfg'.dropThreshold) := by
              intro hcon
              exact h4 (lt_of_le_of_lt hdrop hcon)
            rw [if_neg h4']
            simpa using ih (count + 1) (some (score y))

theorem adlGo_eq_claimGo {cfg : DynamicLimitConfig} :
    ∀ (l : List ℚ) (count : ℕ) (prev : ℚ), (count : ℤ) ≤ cfg.maxResults →
      adlGo id cfg count (some prev) l = claimGo cfg count prev l := by
  intro l
  induction l with
  | nil => intro count prev _; simp [adlGo, claimGo]
  | cons s rest ih =>
    intro count prev hcount
    unfold adlGo claimGo
    dsimp only
    by_cases h1 : (count : ℤ) = cfg.maxResults
    · rw [if_pos h1, if_pos (by omega : (count : ℤ) ≥ cfg.maxResults)]
    · rw [if_neg h1, if_neg (by omega : ¬ ((count : ℤ) ≥ cfg.maxResults))]
      by_cases h2 : (s : ℚ) < cfg.minScore
      · rw [if_pos (by simpa using h2), if_pos h2]
      · rw [if_neg (by simpa using h2), if_neg h2]
        by_cases h4 : (prev - s) / prev > cfg.dropThreshold
        · rw [if_pos (by simpa using h4), if_pos h4]
        · rw [if_neg (by simpa using h4), if_neg h4]
          have := ih (count + 1) s (by omega)
          simp only [id] at this ⊢
          rw [this]

/-! ## Lemmas about the truncation loop -/

theorem jsIndexOfFrom_some_bounds {desc delimiter : List Char} {i j : ℕ}
    (hd : delimiter ≠ []) (h : jsIndexOfFrom desc delimiter i = some j) :
    i ≤ j ∧ j + delimiter.length ≤ desc.length := by
  unfold jsIndexOfFrom at h
  rw [if_neg hd] at h
  rw [Option.map_eq_some'] at h
  obtain ⟨j', hj', rfl⟩ := h
  have hb := firstOcc_some_le hj'
  rw [List.length_drop] at hb
  have hdl : 1 ≤ delimiter.length := by
    cases delimiter with
    | nil => exact absurd rfl hd
    | cons a as => simp
  constructor
  · omega
  · omega

/-- With a non-empty delimiter and enough fuel, the truncation loop
computes exactly the specification's walk over the scanned occurrence
positions. -/
theorem truncGo_eq_specGo {delimiter desc : List Char}
    {startOccurrence minLength : ℤ} (hd : delimiter ≠ []) :
    ∀ (fuel : ℕ) (i : ℕ) (occ : ℤ), i ≤ desc.length →
      desc.length + 1 ≤ fuel + i →
      truncGo delimiter startOccurrence minLength desc fuel occ i =
        some (specGo startOccurrence minLength desc occ
          (occPosGo delimiter desc fuel i)) := by
  intro fuel
  induction fuel with
  | zero => intro i occ hi hfuel; omega
  | succ n ih =>
    intro i occ hi hfuel
    unfold truncGo occPosGo
    cases hfind : jsIndexOfFrom desc delimiter i with
    | none => simp [specGo]
    | some j =>
      obtain ⟨hij, hjd⟩ := jsIndexOfFrom_some_bounds hd hfind
      have hdpos : 1 ≤ delimiter.length := by
        cases delimiter with
        | nil => exact absurd rfl hd
        | cons a as => simp
      dsimp only
      by_cases hocc : occ + 1 ≥ startOccurrence
      · rw [if_pos hocc]
        by_cases hlen : ((jsTrim (desc.take j)).length : ℤ) ≥ minLength
        · rw [if_pos hlen]
          unfold specGo
          rw [if_pos ⟨hocc, hlen⟩]
        · rw [if_neg hlen]
          unfold specGo
          rw [if_neg (by intro hcon; exact hlen hcon.2)]
          exact ih (j + delimiter.length) (occ + 1) (by omega) (by omega)
      · rw [if_neg hocc]
        unfold specGo
        rw [if_neg (by intro hcon; exact hocc hcon.1)]
        exact ih (j + delimiter.length) (occ + 1) (by omega) (by omega)

/-- `truncateForEmbedding` agrees with the specification-side rule for
every non-empty delimiter and positive configured occurrence. -/
theorem truncateForEmbedding_eq_truncSpec (cfg : EmbeddingTruncationConfig)
    (desc : List Char) (hd : cfg.delimiter ≠ []) (hocc : 1 ≤ cfg.occurrence) :
    truncateForEmbedding cfg desc = some (truncSpec cfg desc) := by
  unfold truncateForEmbedding truncSpec
  by_cases hdesc : desc = []
  · subst hdesc
    rw [if_pos rfl]
    by_cases hen : cfg.enabled = false
    · rw [if_pos hen]
    · rw [if_neg hen]
      have hocc0 : occPosGo cfg.delimiter [] (List.length ([] : List Char) + 1) 0 = [] := by
        unfold occPosGo
        unfold jsIndexOfFrom
        rw [if_neg hd]
        simp [firstOcc]
      unfold occPositions
      rw [hocc0]
      simp [specGo]
  · rw [if_neg hdesc]
    by_cases hen : cfg.enabled = false
    · rw [if_pos hen, if_pos hen]
    · rw [if_neg hen, if_neg hen]
      rw [if_neg (by omega : ¬ cfg.occurrence ≤ 0)]
      unfold occPositions
      exact truncGo_eq_specGo hd (desc.length + 1) 0 0 (by omega) (by omega)

/-- With the empty delimiter and a description whose trimmed prefixes
never reach `minLength`, the loop never terminates: `foundIndex` is always
`searchIndex` and `searchIndex` never advances. -/
theorem truncGo_empty_delimiter_diverges :
    ∀ (fuel : ℕ) (occ : ℤ),
      truncGo [] 1 5 ['a', 'b'] fuel occ 0 = none := by
  intro fuel
  induction fuel with
  | zero => intro occ; rfl
  | succ n ih =>
    intro occ
    unfold truncGo
    have hfind : jsIndexOfFrom ['a', 'b'] [] 0 = some 0 := by
      unfold jsIndexOfFrom
      rw [if_pos rfl]
      simp
    rw [hfind]
    dsimp only
    by_cases hocc : occ + 1 ≥ 1
    · rw [if_pos hocc]
      rw [if_neg (by simp [jsTrim])]
      simpa using ih (occ + 1)
    · rw [if_neg hocc]
      simpa using ih (occ + 1)

/-! ## Lemmas about sorting by a unique key -/

theorem sorted_key_perm_eq {α : Type} (key : α → ℤ) :
    ∀ {l₁ l₂ : List α}, l₁.Perm l₂ →
      l₁.Pairwise (fun a b => key a ≤ key b) →
      l₂.Pairwise (fun a b => key a ≤ key b) →
      (l₁.map key).Nodup → l₁ = l₂ := by
  intro l₁
  induction l₁ with
  | nil =>
    intro l₂ hperm _ _ _
    exact (hperm.symm.eq_nil).symm
  | cons a t₁ ih =>
    intro l₂ hperm h1 h2 hnd
    cases l₂ with
    | nil => exact absurd hperm.eq_nil (by simp)
    | cons b t₂ =>
      have hab : a = b := by
        by_contra hne
        have ha2 : a ∈ t₂ := by
          have := hperm.mem_iff.mp (List.mem_cons_self a t₁)
          rcases List.mem_cons.mp this with h | h
          · exact absurd h hne
          · exact h
        have hb1 : b ∈ t₁ := by
          have := hperm.mem_iff.mpr (List.mem_cons_self b t₂)
          rcases List.mem_cons.mp this with h | h
          · exact absurd h.symm hne
          · exact h
        have hba : key b ≤ key a := List.rel_of_pairwise_cons h2 ha2
        have hab' : key a ≤ key b := List.rel_of_pairwise_cons h1 hb1
        have hk : key a = key b := le_antisymm hab' hba
        simp only [List.map_cons, List.nodup_cons] at hnd
        exact hnd.1 (hk ▸ List.mem_map.mpr ⟨b, hb1, rfl⟩)
      subst hab
      have ht : t₁ = t₂ := by
        apply ih (hperm.cons_inv) (List.pairwise_cons.mp h1).2
          (List.pairwise_cons.mp h2).2
        simp only [List.map_cons, List.nodup_cons] at hnd
        exact hnd.2
      rw [ht]

theorem mergeSort_by_index_eq_of_perm {d d' : List EmbDataEntry}
    (hperm : d.Perm d') (hnodup : (d.map EmbDataEntry.index).Nodup) :
    d.mergeSort (fun a b => decide (a.index ≤ b.index)) =
      d'.mergeSort (fun a b => decide (a.index ≤ b.index)) := by
  set le : EmbDataEntry → EmbDataEntry → Bool :=
    fun a b => decide (a.index ≤ b.index) with hle
  have htrans : ∀ (a b c : EmbDataEntry), le a b = true → le b c = true →
      le a c = true := by
    intro a b c h1 h2
    simp only [hle, decide_eq_true_eq] at h1 h2 ⊢
    omega
  have htotal : ∀ (a b : EmbDataEntry), (le a b || le b a) = true := by
    intro a b
    simp only [hle, Bool.or_eq_true, decide_eq_true_eq]
    omega
  have hp1 : (d.mergeSort le).Pairwise (fun a b => a.index ≤ b.index) := by
    have := List.sorted_mergeSort htrans htotal d
    exact this.imp (fun h => by simpa [hle] using h)
  have hp2 : (d'.mergeSort le).Pairwise (fun a b => a.index ≤ b.index) := by
    have := List.sorted_mergeSort htrans htotal d'
    exact this.imp (fun h => by simpa [hle] using h)
  have hperm12 : (d.mergeSort le).Perm (d'.mergeSort le) :=
    ((List.mergeSort_perm d le).trans hperm).trans (List.mergeSort_perm d' le).symm
  have hnd : ((d.mergeSort le).map EmbDataEntry.index).Nodup := by
    have hp : ((d.mergeSort le).map EmbDataEntry.index).Perm
        (d.map EmbDataEntry.index) := (List.mergeSort_perm d le).map _
    exact hp.nodup_iff.mpr hnodup
  exact sorted_key_perm_eq EmbDataEntry.index hperm12 hp1 hp2 hnd

/-! ## Lemmas about `find?` with unique keys -/

theorem find?_reverse_of_unique {α : Type} (p : α → Bool) :
    ∀ (l : List α), (l.filter p).length ≤ 1 → l.reverse.find? p = l.find? p := by
  intro l
  induction l with
  | nil => intro _; rfl
  | cons a t ih =>
    intro hlen
    rw [List.reverse_cons, List.find?_append]
    by_cases hpa : p a = true
    · rw [List.filter_cons_of_pos hpa] at hlen
      simp only [List.length_cons] at hlen
      have hnil : t.filter p = [] := List.length_eq_zero.mp (by omega)
      have hnone : t.find? p = none := by
        rw [List.find?_eq_none]
        intro x hx
        exact (List.filter_eq_nil_iff.mp hnil) x hx
      have hrnone : t.reverse.find? p = none := by
        rw [List.find?_eq_none]
        intro x hx
        exact (List.filter_eq_nil_iff.mp hnil) x (List.mem_reverse.mp hx)
      rw [hrnone, List.find?_cons_of_pos _ hpa]
      simp [List.find?, hpa]
    · rw [List.filter_cons_of_neg hpa] at hlen
      have : ([a].find? p) = none := by
        simp [List.find?, hpa]
      rw [this, Option.or_none, List.find?_cons_of_neg _ hpa]
      exact ih hlen

theorem length_filter_key_le_one {α : Type} (key : α → List Char) :
    ∀ (l : List α), (l.map key).Nodup → ∀ u,
      (l.filter (fun a => decide (key a = u))).length ≤ 1 := by
  intro l
  induction l with
  | nil => intro _ u; simp
  | cons a t ih =>
    intro hnd u
    simp only [List.map_cons, List.nodup_cons] at hnd
    by_cases hk : key a = u
    · rw [List.filter_cons_of_pos (by simpa using hk)]
      have hnil : t.filter (fun x => decide (key x = u)) = [] := by
        rw [List.filter_eq_nil_iff]
        intro x hx hcon
        simp only [decide_eq_true_eq] at hcon
        exact hnd.1 ((hk.trans hcon.symm) ▸ List.mem_map.mpr ⟨x, hx, rfl⟩)
      rw [hnil]
      simp
    · rw [List.filter_cons_of_neg (by simpa using hk)]
      exact ih hnd.2 u

theorem find?_filter_eq {α : Type} (p q : α → Bool) :
    ∀ (l : List α), (l.filter q).find? p = l.find? (fun a => q a && p a) := by
  intro l
  induction l with
  | nil => rfl
  | cons a t ih =>
    by_cases hq : q a = true
    · rw [List.filter_cons_of_pos hq]
      by_cases hp : p a = true
      · rw [List.find?_cons_of_pos _ hp, List.find?_cons_of_pos _ (by simp [hq, hp])]
      · rw [List.find?_cons_of_neg _ hp, List.find?_cons_of_neg _ (by simp [hq, hp]), ih]
    · rw [List.filter_cons_of_neg hq, List.find?_cons_of_neg _ (by simp [hq]), ih]

/-! ## Claim theorems -/

/-- C4, counterexample.  The claim's walk rule accepts result 0 whenever
its score meets `minScore`, with the `maxResults` stop checked only from
`i ≥ 1` on; but the source checks `filtered.length >= maxResults` before
every acceptance, including the first.  With `maxResults = 0` and the
single score `1/2 ≥ minScore = 3/10` the code returns no results while the
claimed rule returns one. -/
theorem c4_dynamic_limit_counterexample :
    applyDynamicLimit ⟨0, 30 / 100, 3 / 10⟩ [1 / 2] = [] ∧
    claimPrefix ⟨0, 30 / 100, 3 / 10⟩ [1 / 2] = [1 / 2] ∧
    applyDynamicLimit ⟨0, 30 / 100, 3 / 10⟩ [1 / 2] ≠
      claimPrefix ⟨0, 30 / 100, 3 / 10⟩ [1 / 2] := by
  refine ⟨?_, ?_, ?_⟩
  · norm_num [applyDynamicLimit, applyDynamicLimitG, adlGo]
  · norm_num [claimPrefix, claimGo]
  · norm_num [applyDynamicLimit, applyDynamicLimitG, adlGo, claimPrefix, claimGo]

/-- C4, amended.  Whenever `maxResults ≥ 1` (in particular for the default
configuration), `applyDynamicLimit` returns exactly the prefix of the
claim's walk rule: accept result 0 iff its score is `≥ minScore`; for
`i ≥ 1` stop as soon as the accepted count equals `maxResults`, the score
falls below `minScore`, or the relative drop exceeds `dropThreshold`.
With defaults, `[0.95, 0.93, 0.90, 0.50, 0.48]` yields exactly 3 results
and `[0.20, 0.19]` yields none. -/
theorem c4_dynamic_limit_amended :
    (∀ (cfg : DynamicLimitConfig) (scores : List ℚ), 1 ≤ cfg.maxResults →
      applyDynamicLimit cfg scores = claimPrefix cfg scores) ∧
    applyDynamicLimit DEFAULT_DYNAMIC_CONFIG
      [95 / 100, 93 / 100, 90 / 100, 50 / 100, 48 / 100] =
      [95 / 100, 93 / 100, 90 / 100] ∧
    applyDynamicLimit DEFAULT_DYNAMIC_CONFIG [20 / 100, 19 / 100] = [] := by
  refine ⟨?_, ?_, ?_⟩
  · intro cfg scores hmax
    cases scores with
    | nil => simp [applyDynamicLimit, applyDynamicLimitG, adlGo, claimPrefix]
    | cons s rest =>
      unfold applyDynamicLimit applyDynamicLimitG adlGo claimPrefix
      dsimp only
      rw [if_neg (by omega : ¬ ((0 : ℕ) : ℤ) ≥ cfg.maxResults)]
      by_cases h2 : (s : ℚ) < cfg.minScore
      · rw [if_pos (by simpa using h2), if_pos h2]
      · rw [if_neg (by simpa using h2), if_neg h2]
        simp only [zero_add, id_eq]
        rw [@adlGo_eq_claimGo cfg rest 1 s (by omega)]
  · norm_num [applyDynamicLimit, applyDynamicLimitG, adlGo, DEFAULT_DYNAMIC_CONFIG]
  · norm_num [applyDynamicLimit, applyDynamicLimitG, adlGo, DEFAULT_DYNAMIC_CONFIG]

/-- C4 witness: the amended equivalence instantiated at a concrete
configuration and score list. -/
theorem c4_dynamic_limit_witness :
    applyDynamicLimit ⟨2, 3 / 10, 3 / 10⟩ [9 / 10, 88 / 100, 87 / 100] =
      claimPrefix ⟨2, 3 / 10, 3 / 10⟩ [9 / 10, 88 / 100, 87 / 100] :=
  c4_dynamic_limit_amended.1 ⟨2, 3 / 10, 3 / 10⟩ [9 / 10, 88 / 100, 87 / 100]
    (by norm_num)

/-- C6.  Dynamic-limit monotonicity: with the other parameters fixed,
increasing `maxResults` never shrinks the output, and raising `minScore`
or lowering `dropThreshold` never grows it. -/
theorem c6_dynamic_limit_monotonicity :
    (∀ (m m' : ℤ) (th ms : ℚ) (l : List ℚ), m ≤ m' →
      (applyDynamicLimit ⟨m, th, ms⟩ l).length ≤
        (applyDynamicLimit ⟨m', th, ms⟩ l).length) ∧
    (∀ (m : ℤ) (th ms ms' : ℚ) (l : List ℚ), ms ≤ ms' →
      (applyDynamicLimit ⟨m, th, ms'⟩ l).length ≤
        (applyDynamicLimit ⟨m, th, ms⟩ l).length) ∧
    (∀ (m : ℤ) (th th' ms : ℚ) (l : List ℚ), th ≤ th' →
      (applyDynamicLimit ⟨m, th, ms⟩ l).length ≤
        (applyDynamicLimit ⟨m, th', ms⟩ l).length) := by
  refine ⟨?_, ?_, ?_⟩
  · intro m m' th ms l h
    exact @adlGo_length_mono ℚ id ⟨m, th, ms⟩ ⟨m', th, ms⟩ h (le_refl _) (le_refl _)
      l 0 none
  · intro m th ms ms' l h
    exact @adlGo_length_mono ℚ id ⟨m, th, ms'⟩ ⟨m, th, ms⟩ (le_refl _) h (le_refl _)
      l 0 none
  · intro m th th' ms l h
    exact @adlGo_length_mono ℚ id ⟨m, th, ms⟩ ⟨m, th', ms⟩ (le_refl _) (le_refl _) h
      l 0 none

/-- C6 witness: monotonicity in `maxResults` at a concrete input. -/
theorem c6_dynamic_limit_witness :
    (applyDynamicLimit ⟨1, 3 / 10, 3 / 10⟩ [9 / 10, 88 / 100]).length ≤
      (applyDynamicLimit ⟨10, 3 / 10, 3 / 10⟩ [9 / 10, 88 / 100]).length :=
  c6_dynamic_limit_monotonicity.1 1 10 (3 / 10) (3 / 10) [9 / 10, 88 / 100]
    (by norm_num)

/-- C7.  For every description, a non-empty delimiter and a positive
configured occurrence (the configuration surface requires
`occurrence ≥ 1`), `truncateForEmbedding` terminates and returns the
specification's choice: the description verbatim when truncation is
disabled (second conjunct makes this case of `truncSpec` explicit), the
first trimmed prefix of length `≥ minLength` cut at an occurrence at or
after the configured one, and the full description when no occurrence
qualifies (the `[]` case of `specGo`). -/
theorem c7_truncation_stability (cfg : EmbeddingTruncationConfig)
    (description : List Char) (hd : cfg.delimiter ≠ [])
    (hocc : 1 ≤ cfg.occurrence) :
    truncateForEmbedding cfg description = some (truncSpec cfg description) ∧
    (cfg.enabled = false → truncSpec cfg description = description) := by
  constructor
  · exact truncateForEmbedding_eq_truncSpec cfg description hd hocc
  · intro hen
    unfold truncSpec
    rw [if_pos hen]

/-- C7 witness: the default configuration on a description with a newline;
the loop truncates at the first occurrence. -/
theorem c7_truncation_witness :
    truncateForEmbedding DEFAULT_TRUNCATION_CONFIG
        ['L', 'o', 'n', 'g', ' ', 't', 'e', 'x', 't', '\n', 'r', 'e', 's', 't'] =
      some (truncSpec DEFAULT_TRUNCATION_CONFIG
        ['L', 'o', 'n', 'g', ' ', 't', 'e', 'x', 't', '\n', 'r', 'e', 's', 't']) :=
  (c7_truncation_stability DEFAULT_TRUNCATION_CONFIG
    ['L', 'o', 'n', 'g', ' ', 't', 'e', 'x', 't', '\n', 'r', 'e', 's', 't']
    (by decide) (by decide)).1

/-- C10.  The delimiter-scanning loop terminates for every non-empty
delimiter (each iteration advances the search index by at least the
delimiter's length), and non-emptiness is necessary: with the empty
delimiter `indexOf` keeps returning the unchanged search index, and on a
description whose trimmed prefixes never reach `minLength` the loop never
returns — the fuelled model yields `none` at its standard fuel (and
`truncGo_empty_delimiter_diverges` shows `none` at every fuel). -/
theorem c10_truncation_termination :
    (∀ (cfg : EmbeddingTruncationConfig) (description : List Char),
      cfg.delimiter ≠ [] → (truncateForEmbedding cfg description).isSome = true) ∧
    truncateForEmbedding ⟨[], 1, 5, true⟩ ['a', 'b'] = none := by
  constructor
  · intro cfg description hd
    unfold truncateForEmbedding
    by_cases hdesc : description = []
    · rw [if_pos hdesc]; rfl
    · rw [if_neg hdesc]
      by_cases hen : cfg.enabled = false
      · rw [if_pos hen]; rfl
      · rw [if_neg hen]
        by_cases hocc : cfg.occurrence ≤ 0
        · rw [if_pos hocc]; rfl
        · rw [if_neg hocc]
          rw [truncGo_eq_specGo hd (description.length + 1) 0 0 (by omega) (by omega)]
          rfl
  · show truncGo [] 1 5 ['a', 'b'] (List.length ['a', 'b'] + 1) 0 0 = none
    exact truncGo_empty_delimiter_diverges _ 0

/-- C10 witness: termination at the default configuration. -/
theorem c10_truncation_witness :
    (truncateForEmbedding DEFAULT_TRUNCATION_CONFIG ['h', 'i']).isSome = true :=
  c10_truncation_termination.1 DEFAULT_TRUNCATION_CONFIG ['h', 'i'] (by decide)

/-- C3, counterexample.  In embeddings mode with client and namespace set,
a failing embedding search does make that `discover` call fall back to the
lexical backend — but the `catch` in `discover` assigns nothing, so the
session state is unchanged and the *next* `discover` still satisfies the
line-393 condition and attempts the embedding endpoint again,
contradicting the claim that subsequent calls use the lexical backend
without re-attempting it. -/
theorem c3_fallback_counterexample :
    (discoverStep ⟨SearchMode.embeddings, true, true⟩ false).1 =
      DiscoverBackend.lexical ∧
    (discoverStep ⟨SearchMode.embeddings, true, true⟩ false).2 =
      ⟨SearchMode.embeddings, true, true⟩ ∧
    discoverAttemptsEmbedding
      ((discoverStep ⟨SearchMode.embeddings, true, true⟩ false).2) = true := by
  refine ⟨rfl, rfl, rfl⟩

/-- C3, amended.  A failing embeddings `discover` returns the lexical
result for that call and leaves the session state unchanged (so later
calls re-attempt the embedding endpoint); the session is downgraded to
keyword mode only by a failure of the bind-time reconciliation
(`generateAndStoreEmbeddings`), after which `discover` no longer attempts
the endpoint. -/
theorem c3_fallback_amended (st : ProxyModeState)
    (h : discoverAttemptsEmbedding st = true) :
    (discoverStep st false).1 = DiscoverBackend.lexical ∧
    (discoverStep st false).2 = st ∧
    generateAndStoreEmbeddingsStep st false =
      { st with searchMode := SearchMode.keyword } ∧
    discoverAttemptsEmbedding (generateAndStoreEmbeddingsStep st false) = false := by
  refine ⟨?_, ?_, ?_, ?_⟩
  · unfold discoverStep
    rw [if_pos h]
    simp
  · unfold discoverStep
    rw [if_pos h]
    simp
  · unfold generateAndStoreEmbeddingsStep
    rw [if_neg (by simp)]
  · unfold generateAndStoreEmbeddingsStep
    rw [if_neg (by simp)]
    simp [discoverAttemptsEmbedding]

/-- C3 witness: the amended behaviour at the concrete embeddings-mode
session state. -/
theorem c3_fallback_witness :
    (discoverStep ⟨SearchMode.embeddings, true, true⟩ false).1 =
        DiscoverBackend.lexical ∧
    discoverAttemptsEmbedding
      (generateAndStoreEmbeddingsStep ⟨SearchMode.embeddings, true, true⟩ false) =
        false := by
  have h := c3_fallback_amended ⟨SearchMode.embeddings, true, true⟩ rfl
  exact ⟨h.1, h.2.2.2⟩

/-- C8.  `execute` on an absent `toolId::method` pair fails with the
not-found message — which contains the method name and the `discover`
hint — and leaves the tool table unchanged; on a present pair it forwards
`callTool{name: method, arguments: args}` to the owning connection. -/
theorem c8_execute_dispatch (tools : List (List Char × ToolEntry))
    (toolId method : List Char) (args : JVal) :
    (mapGet tools (toolId ++ dcolon ++ method) = none →
      executeS tools toolId method args =
        (tools, Except.error (execNotFoundMessage toolId method)) ∧
      containsSubB method (execNotFoundMessage toolId method) = true ∧
      containsSubB "discover".data (execNotFoundMessage toolId method) = true) ∧
    (∀ e, mapGet tools (toolId ++ dcolon ++ method) = some e →
      executeS tools toolId method args =
        (tools, Except.ok ⟨e.client, method, args⟩)) := by
  constructor
  · intro hnone
    refine ⟨?_, ?_, ?_⟩
    · unfold executeS
      rw [hnone]
    · have hshape : execNotFoundMessage toolId method =
          "Tool ".data ++ method ++
            (" on server ".data ++ toolId ++
              " not found. Use \x27discover\x27 to find available tools.".data) := by
        unfold execNotFoundMessage
        simp [List.append_assoc]
      rw [hshape]
      exact containsSubB_middle _ _ _ (by decide)
    · have hshape : execNotFoundMessage toolId method =
          ("Tool ".data ++ method ++ " on server ".data ++ toolId ++
              " not found. Use \x27".data) ++
            ("discover".data ++ "\x27 to find available tools.".data) := by
        unfold execNotFoundMessage
        have htail : " not found. Use \x27discover\x27 to find available tools.".data =
            " not found. Use \x27".data ++
              ("discover".data ++ "\x27 to find available tools.".data) := by rfl
        rw [htail]
        simp [List.append_assoc]
      rw [hshape]
      exact containsSubB_of_append_self _ _ _ (by decide)
  · intro e hsome
    unfold executeS
    rw [hsome]

/-- C8 witness: the not-found case on the empty table and the forwarding
case on a singleton table. -/
theorem c8_execute_witness :
    executeS [] ['n', 'o', 'p', 'e'] ['n', 'o', 'p', 'e'] JVal.jnull =
      ([], Except.error (execNotFoundMessage ['n', 'o', 'p', 'e'] ['n', 'o', 'p', 'e'])) ∧
    containsSubB ['n', 'o', 'p', 'e']
      (execNotFoundMessage ['n', 'o', 'p', 'e'] ['n', 'o', 'p', 'e']) = true ∧
    containsSubB "discover".data
      (execNotFoundMessage ['n', 'o', 'p', 'e'] ['n', 'o', 'p', 'e']) = true :=
  (c8_execute_dispatch [] ['n', 'o', 'p', 'e'] ['n', 'o', 'p', 'e'] JVal.jnull).1 rfl

/-- C9.  The embedding client's batch contract: empty input yields the
empty list whatever the service would do (no request is needed); more
than 100 texts is rejected with the batch error regardless of the
service; any non-empty batch of at most 100 texts (so exactly 100 is
accepted) yields the vectors of the response data sorted by its `index`
field; and for distinct indices the result does not depend on the order
in which the server returned the data entries. -/
theorem c9_embedding_client_batch_contract :
    (∀ resp, generateEmbeddings [] resp = Except.ok []) ∧
    (∀ (texts : List (List Char)) (resp : EmbServiceResp), texts.length > 100 →
      generateEmbeddings texts resp = Except.error EmbClientError.batchTooLarge) ∧
    (∀ (texts : List (List Char)) (data : List EmbDataEntry),
      texts ≠ [] → texts.length ≤ 100 →
      generateEmbeddings texts (EmbServiceResp.respOk data) =
        Except.ok ((data.mergeSort (fun a b => decide (a.index ≤ b.index))).map
          EmbDataEntry.embedding)) ∧
    (∀ (texts : List (List Char)) (data data' : List EmbDataEntry),
      data.Perm data' → (data.map EmbDataEntry.index).Nodup →
      generateEmbeddings texts (EmbServiceResp.respOk data) =
        generateEmbeddings texts (EmbServiceResp.respOk data')) := by
  refine ⟨?_, ?_, ?_, ?_⟩
  · intro resp
    rfl
  · intro texts resp h
    unfold generateEmbeddings
    rw [if_neg (by omega), if_pos (by omega)]
  · intro texts data hne hle
    unfold generateEmbeddings
    have h0 : ¬ texts.length = 0 := by
      intro hcon
      exact hne (List.length_eq_zero.mp hcon)
    rw [if_neg h0, if_neg (by omega)]
  · intro texts data data' hperm hnodup
    unfold generateEmbeddings
    dsimp only
    by_cases h0 : texts.length = 0
    · simp only [if_pos h0]
    · simp only [if_neg h0]
      by_cases h100 : texts.length > 100
      · simp only [if_pos h100]
      · simp only [if_neg h100]
        rw [mergeSort_by_index_eq_of_perm hperm hnodup]

/-- C9 witness: a batch of exactly 100 texts is accepted and an empty
response body yields the empty vector list. -/
theorem c9_embedding_client_witness :
    generateEmbeddings (List.replicate 100 ['x']) (EmbServiceResp.respOk []) =
      Except.ok [] := by
  have h := c9_embedding_client_batch_contract.2.2.1 (List.replicate 100 ['x']) []
    (by simp) (by simp)
  simpa using h

/-- The lookup the source builds (`new Map` over the namespace/model/
`inArray`-filtered rows, later rows overwriting) agrees with the
specification's unique-row lookup whenever invariant E1 holds (at most one
row per `(tool_uuid, namespace_uuid, model_name)`), for every queried tool
that is in the requested list. -/
theorem lastWinsLookup_eq_specStoredText (tools : List (List Char × List Char))
    (namespaceUuid modelName : List Char) (dbRows : List StoredEmbeddingRow)
    (huniq : ((dbRows.filter (fun r =>
        decide (r.namespace_uuid = namespaceUuid)
          && decide (r.model_name = modelName))).map
        StoredEmbeddingRow.tool_uuid).Nodup)
    (u : List Char) (hu : u ∈ tools.map Prod.fst) :
    lastWinsLookup
      ((dbRows.filter (fun r =>
        decide (r.namespace_uuid = namespaceUuid) && decide (r.model_name = modelName)
          && decide (r.tool_uuid ∈ tools.map Prod.fst))).map
        (fun r => (r.tool_uuid, r.embedding_text))) u =
      specStoredText dbRows namespaceUuid modelName u := by
  set existing := dbRows.filter (fun r =>
    decide (r.namespace_uuid = namespaceUuid) && decide (r.model_name = modelName)
      && decide (r.tool_uuid ∈ tools.map Prod.fst)) with hexisting
  have hkeys : (existing.map StoredEmbeddingRow.tool_uuid).Nodup := by
    have hsub : existing.Sublist (dbRows.filter (fun r =>
        decide (r.namespace_uuid = namespaceUuid)
          && decide (r.model_name = modelName))) := by
      rw [hexisting]
      apply List.monotone_filter_right
      intro r hr
      simp only [Bool.and_eq_true] at hr
      simp [hr.1.1, hr.1.2]
    exact (hsub.map StoredEmbeddingRow.tool_uuid).nodup huniq
  unfold lastWinsLookup
  rw [← List.map_reverse, List.find?_map]
  have hcomp : ((fun p : List Char × List Char => decide (p.1 = u)) ∘
      (fun r : StoredEmbeddingRow => (r.tool_uuid, r.embedding_text))) =
      (fun r : StoredEmbeddingRow => decide (r.tool_uuid = u)) := rfl
  rw [hcomp]
  rw [find?_reverse_of_unique _ existing
    (length_filter_key_le_one StoredEmbeddingRow.tool_uuid existing hkeys u)]
  rw [hexisting, find?_filter_eq]
  have hpred : (fun r : StoredEmbeddingRow =>
      (decide (r.namespace_uuid = namespaceUuid) && decide (r.model_name = modelName)
        && decide (r.tool_uuid ∈ tools.map Prod.fst)) && decide (r.tool_uuid = u)) =
      (fun r : StoredEmbeddingRow =>
        decide (r.namespace_uuid = namespaceUuid) && decide (r.model_name = modelName)
          && decide (r.tool_uuid = u)) := by
    funext r
    by_cases hru : r.tool_uuid = u
    · simp [hru]
      intro _ _
      obtain ⟨a, ha, hae⟩ := List.mem_map.mp hu
      exact ⟨a.2, by rw [← hae]; simpa using ha⟩
    · simp [hru]
  rw [hpred]
  unfold specStoredText
  rw [Option.map_map]
  rfl

/-- C5, counterexample.  A stored row whose `embedding_text` is the empty
string: the source's `if (!storedText)` treats the empty string as a
missing row, so the tool is returned even though a row exists whose
stored text equals the requested text byte-for-byte, contradicting the
claim's "no more". -/
theorem c5_staleness_counterexample :
    getToolsNeedingEmbeddings [(['u'], [])] ['n'] ['m']
        [⟨['u'], ['n'], ['m'], []⟩] = [['u']] ∧
    specStoredText [⟨['u'], ['n'], ['m'], []⟩] ['n'] ['m'] ['u'] = some [] ∧
    claimNeedsRegeneration [⟨['u'], ['n'], ['m'], []⟩] ['n'] ['m'] ['u'] [] = false := by
  refine ⟨by decide, by decide, by decide⟩

/-- C5, amended.  Under invariant E1 (unique stored row per key),
`getToolsNeedingEmbeddings` returns exactly the `tool_uuid`s of the
requested list whose stored row is missing, whose stored
`embedding_text` is the **empty string**, or whose stored text differs
byte-for-byte from the requested one (`codeNeedsRegeneration`) — so a
re-bind with unchanged non-empty canonical texts regenerates nothing, and
changing one tool's text regenerates exactly that tool. -/
theorem c5_staleness_amended (tools : List (List Char × List Char))
    (namespaceUuid modelName : List Char) (dbRows : List StoredEmbeddingRow)
    (huniq : ((dbRows.filter (fun r =>
        decide (r.namespace_uuid = namespaceUuid)
          && decide (r.model_name = modelName))).map
        StoredEmbeddingRow.tool_uuid).Nodup) :
    getToolsNeedingEmbeddings tools namespaceUuid modelName dbRows =
      (tools.filter (fun t =>
        codeNeedsRegeneration dbRows namespaceUuid modelName t.1 t.2)).map
        Prod.fst := by
  unfold getToolsNeedingEmbeddings
  by_cases htools : tools = []
  · rw [if_pos htools, htools]
    simp
  · rw [if_neg htools]
    dsimp only
    congr 1
    apply List.filter_congr
    intro t ht
    have hu : t.1 ∈ tools.map Prod.fst := List.mem_map.mpr ⟨t, ht, rfl⟩
    rw [lastWinsLookup_eq_specStoredText tools namespaceUuid modelName dbRows
      huniq t.1 hu]
    unfold codeNeedsRegeneration
    rfl

/-- C5 witness: a re-bind with one unchanged stored text regenerates
nothing. -/
theorem c5_staleness_witness :
    getToolsNeedingEmbeddings [(['u'], ['t'])] ['n'] ['m']
        [⟨['u'], ['n'], ['m'], ['t']⟩] =
      (([(['u'], ['t'])] : List (List Char × List Char)).filter (fun t =>
        codeNeedsRegeneration [⟨['u'], ['n'], ['m'], ['t']⟩] ['n'] ['m'] t.1 t.2)).map
        Prod.fst :=
  c5_staleness_amended [(['u'], ['t'])] ['n'] ['m'] [⟨['u'], ['n'], ['m'], ['t']⟩]
    (by decide)

/-! ## Characterizations of the discovery pipelines -/

theorem keywordMappedPairs_mem {tools : List (List Char × ToolEntry)}
    {rs : List (IndexDoc × ℚ)} {pr : ScoredDescriptor × ToolEntry}
    (h : pr ∈ keywordMappedPairs tools rs) :
    ∃ r ∈ rs, mapGet tools r.1.id = some pr.2 ∧
      pr.1 = ⟨r.1.toolId, r.1.method, r.1.description, pr.2.tool.inputSchema,
        r.2 / keywordMaxScore rs⟩ := by
  obtain ⟨r, hr, hbody⟩ := List.mem_filterMap.mp h
  cases hget : mapGet tools r.1.id with
  | none => rw [hget] at hbody; simp at hbody
  | some toolData =>
    rw [hget] at hbody
    simp only [Option.some.injEq] at hbody
    refine ⟨r, hr, ?_, ?_⟩
    · rw [hget, ← hbody]
    · rw [← hbody]

theorem vectorMappedPairs_mem {tools : List (List Char × ToolEntry)}
    {sims : List (List Char × ℚ)} {pr : ScoredDescriptor × ToolEntry}
    (h : pr ∈ vectorMappedPairs tools sims) :
    ∃ st ∈ sims, ∃ uid, (uid, pr.2) ∈ tools ∧
      pr.1 = ⟨(jsSplit dcolon uid).getD 0 [], (jsSplit dcolon uid).getD 1 [],
        pr.2.tool.description, pr.2.tool.inputSchema, st.2⟩ := by
  obtain ⟨st, hst, hbody⟩ := List.mem_filterMap.mp h
  cases hfind : tools.find? (fun p => decide (p.2.toolUuid = st.1)) with
  | none => rw [hfind] at hbody; simp at hbody
  | some te =>
    rw [hfind] at hbody
    simp only [Option.some.injEq] at hbody
    refine ⟨st, hst, te.1, ?_, ?_⟩
    · have hmem : te ∈ tools := List.mem_of_find?_eq_some hfind
      have : pr.2 = te.2 := by rw [← hbody]
      rw [this]
      exact hmem
    · rw [← hbody]

/-- C1, counterexample.  Bind one tool whose original name contains
`"::"` (`serverName = "s"`, `originalName = "a::b"`).  On the vector path
the stored `uniqueId` `"s::a::b"` splits into three parts, the descriptor
is emitted with `toolId = "s"`, `method = "a"`, and the `execute` lookup
key `"s::a"` is absent from the tool table, so `execute` raises
`ToolNotFound` instead of resolving to the entry that produced the
descriptor. -/
theorem c1_catalogue_invariance_counterexample :
    (discoverWithEmbeddingsResult
        (toolsTableOf [⟨⟨some ['d'], JVal.jobj []⟩, ⟨7⟩, ['s'],
          ['a', ':', ':', 'b'], ['u', '1']⟩])
        [(['u', '1'], 1)] ⟨10, 1, 0⟩).map
      (fun d => (d.toolId, d.method)) = [(['s'], ['a'])] ∧
    mapGet (toolsTableOf [⟨⟨some ['d'], JVal.jobj []⟩, ⟨7⟩, ['s'],
        ['a', ':', ':', 'b'], ['u', '1']⟩]) (['s'] ++ dcolon ++ ['a']) = none ∧
    (executeS (toolsTableOf [⟨⟨some ['d'], JVal.jobj []⟩, ⟨7⟩, ['s'],
        ['a', ':', ':', 'b'], ['u', '1']⟩]) ['s'] ['a'] (JVal.jobj [])).2 =
      Except.error (execNotFoundMessage ['s'] ['a']) := by
  refine ⟨rfl, rfl, rfl⟩

/-- C1, amended.  Catalogue invariance holds unconditionally on the
keyword path: every search-result document stored at last bind
reconstructs its own key (`toolId ++ "::" ++ method = id`), so the
`execute` lookup returns exactly the entry that produced the descriptor,
and `execute` forwards to that entry's connection.  On the vector path it
holds provided server and tool names are colon-free (so each stored
`uniqueId` splits back into exactly its two parts); tool names containing
`"::"` break it (see the counterexample). -/
theorem c1_catalogue_invariance_amended (binds : List BindTool)
    (rs : List (IndexDoc × ℚ)) (sims : List (List Char × ℚ))
    (cfg : DynamicLimitConfig) :
    ((∀ r ∈ rs, r.1 ∈ indexDocsOf binds) →
      (∀ pr ∈ keywordMappedPairs (toolsTableOf binds) rs,
        mapGet (toolsTableOf binds) (pr.1.toolId ++ dcolon ++ pr.1.method) =
          some pr.2 ∧
        ∀ args, (executeS (toolsTableOf binds) pr.1.toolId pr.1.method args).2 =
          Except.ok ⟨pr.2.client, pr.1.method, args⟩) ∧
      (∀ d ∈ discoverWithKeywordsResult (toolsTableOf binds) rs cfg,
        ∃ e, mapGet (toolsTableOf binds) (d.toolId ++ dcolon ++ d.method) = some e ∧
          d.inputSchema = e.tool.inputSchema)) ∧
    ((∀ b ∈ binds, ':' ∉ b.serverName ∧ ':' ∉ b.originalName) →
      (∀ pr ∈ vectorMappedPairs (toolsTableOf binds) sims,
        mapGet (toolsTableOf binds) (pr.1.toolId ++ dcolon ++ pr.1.method) =
          some pr.2 ∧
        ∀ args, (executeS (toolsTableOf binds) pr.1.toolId pr.1.method args).2 =
          Except.ok ⟨pr.2.client, pr.1.method, args⟩) ∧
      (∀ d ∈ discoverWithEmbeddingsResult (toolsTableOf binds) sims cfg,
        ∃ e, mapGet (toolsTableOf binds) (d.toolId ++ dcolon ++ d.method) = some e ∧
          d.inputSchema = e.tool.inputSchema ∧ d.description = e.tool.description)) := by
  have hkwpairs : (∀ r ∈ rs, r.1 ∈ indexDocsOf binds) →
      ∀ pr ∈ keywordMappedPairs (toolsTableOf binds) rs,
        mapGet (toolsTableOf binds) (pr.1.toolId ++ dcolon ++ pr.1.method) =
          some pr.2 := by
    intro hdocs pr hpr
    obtain ⟨r, hr, hget, hdescr⟩ := keywordMappedPairs_mem hpr
    obtain ⟨b, _, hdoc⟩ := List.mem_map.mp (hdocs r hr)
    have hid : r.1.toolId ++ dcolon ++ r.1.method = r.1.id := by
      rw [← hdoc]
      rfl
    rw [hdescr]
    dsimp only
    rw [hid]
    exact hget
  have hvecpairs : (∀ b ∈ binds, ':' ∉ b.serverName ∧ ':' ∉ b.originalName) →
      ∀ pr ∈ vectorMappedPairs (toolsTableOf binds) sims,
        mapGet (toolsTableOf binds) (pr.1.toolId ++ dcolon ++ pr.1.method) =
          some pr.2 := by
    intro hcolon pr hpr
    obtain ⟨st, hst, uid, hmem, hdescr⟩ := vectorMappedPairs_mem hpr
    obtain ⟨b, hb, hbe⟩ := toolsTableOf_mem hmem
    have huid : uid = uniqueIdOf b := congrArg Prod.fst hbe
    have hsplit : jsSplit dcolon uid = [b.serverName, b.originalName] := by
      rw [huid]
      exact jsSplit_dcolon_of_no_colon (hcolon b hb).1 (hcolon b hb).2
    rw [hdescr]
    dsimp only
    rw [hsplit]
    show mapGet (toolsTableOf binds) (b.serverName ++ dcolon ++ b.originalName) =
      some pr.2
    have hpair : (uniqueIdOf b, pr.2) ∈ toolsTableOf binds := by
      have h2 : pr.2 = ⟨b.tool, b.client, b.toolUuid⟩ := congrArg Prod.snd hbe
      rw [h2, ← huid, ← h2]
      exact hmem
    exact mapGet_of_mem hpair (toolsTableOf_keys_nodup binds)
  have hexec : ∀ (pr : ScoredDescriptor × ToolEntry),
      mapGet (toolsTableOf binds) (pr.1.toolId ++ dcolon ++ pr.1.method) =
        some pr.2 →
      ∀ args, (executeS (toolsTableOf binds) pr.1.toolId pr.1.method args).2 =
        Except.ok ⟨pr.2.client, pr.1.method, args⟩ := by
    intro pr hget args
    unfold executeS
    rw [hget]
  constructor
  · intro hdocs
    constructor
    · intro pr hpr
      exact ⟨hkwpairs hdocs pr hpr, hexec pr (hkwpairs hdocs pr hpr)⟩
    · intro d hd
      unfold discoverWithKeywordsResult at hd
      obtain ⟨d', hd', hstrip⟩ := List.mem_map.mp hd
      have hd'' := mem_of_mem_applyDynamicLimitG hd'
      obtain ⟨pr, hpr, hfst⟩ := List.mem_map.mp hd''
      refine ⟨pr.2, ?_, ?_⟩
      · have := hkwpairs hdocs pr hpr
        rw [← hstrip, ← hfst]
        exact this
      · obtain ⟨r, _, _, hdescr⟩ := keywordMappedPairs_mem hpr
        rw [← hstrip, ← hfst, hdescr]
  · intro hcolon
    constructor
    · intro pr hpr
      exact ⟨hvecpairs hcolon pr hpr, hexec pr (hvecpairs hcolon pr hpr)⟩
    · intro d hd
      unfold discoverWithEmbeddingsResult at hd
      have hd'' := mem_of_mem_applyDynamicLimitG hd
      obtain ⟨pr, hpr, hfst⟩ := List.mem_map.mp hd''
      refine ⟨pr.2, ?_, ?_, ?_⟩
      · rw [← hfst]
        exact hvecpairs hcolon pr hpr
      · obtain ⟨st, _, uid, _, hdescr⟩ := vectorMappedPairs_mem hpr
        rw [← hfst, hdescr]
      · obtain ⟨st, _, uid, _, hdescr⟩ := vectorMappedPairs_mem hpr
        rw [← hfst, hdescr]

/-- C1 witness: a bind with colon-free names; the vector-path pair for
the similarity hit resolves back to its producing entry. -/
theorem c1_catalogue_invariance_witness :
    mapGet (toolsTableOf [⟨⟨some ['d'], JVal.jobj []⟩, ⟨3⟩, ['s'], ['a'], ['u', '1']⟩])
        (['s'] ++ dcolon ++ ['a']) =
      some ⟨⟨some ['d'], JVal.jobj []⟩, ⟨3⟩, ['u', '1']⟩ := by
  have h := (c1_catalogue_invariance_amended
    [⟨⟨some ['d'], JVal.jobj []⟩, ⟨3⟩, ['s'], ['a'], ['u', '1']⟩]
    [] [(['u', '1'], 1)] ⟨10, 1, 0⟩).2 (by decide)
  have hmem : (⟨⟨['s'], ['a'], some ['d'], JVal.jobj [], 1⟩,
      ⟨⟨some ['d'], JVal.jobj []⟩, ⟨3⟩, ['u', '1']⟩⟩ :
      ScoredDescriptor × ToolEntry) ∈
      vectorMappedPairs
        (toolsTableOf [⟨⟨some ['d'], JVal.jobj []⟩, ⟨3⟩, ['s'], ['a'], ['u', '1']⟩])
        [(['u', '1'], 1)] :=
    List.mem_singleton.mpr rfl
  exact (h.1 _ hmem).1

/-- C2, counterexample.  On the embeddings path `JSON.stringify` is
applied to the result of `applyDynamicLimit(mappedResults)` directly
(part_000 line 459): the `score` field is never removed there, so the
serialized objects carry five fields, not the claimed four — only the
keyword path strips the score (line 501). -/
theorem c2_response_shape_counterexample :
    fieldNamesOfJson (vectorResponseJson
        (toolsTableOf [⟨⟨some ['d'], JVal.jobj []⟩, ⟨3⟩, ['s'], ['a'], ['u', '1']⟩])
        [(['u', '1'], 1)] ⟨10, 1, 0⟩) =
      [["toolId", "method", "description", "inputSchema", "score"]] ∧
    (fieldNamesOfJson (vectorResponseJson
        (toolsTableOf [⟨⟨some ['d'], JVal.jobj []⟩, ⟨3⟩, ['s'], ['a'], ['u', '1']⟩])
        [(['u', '1'], 1)] ⟨10, 1, 0⟩)).all
      (fun f => decide (f = ["toolId", "method", "description", "inputSchema"])) =
      false := by
  refine ⟨rfl, rfl⟩

/-- C2, amended.  When every relevant tool has a description, the keyword
path serializes objects with exactly the fields `toolId, method,
description, inputSchema` (score removed), while the embeddings path
serializes `toolId, method, description, inputSchema, score` — the score
field is not stripped there.  (A tool without a description drops the
`description` key on either path, since `JSON.stringify` omits
`undefined` properties.) -/
theorem c2_response_shape_amended (tools : List (List Char × ToolEntry))
    (rs : List (IndexDoc × ℚ)) (sims : List (List Char × ℚ))
    (cfg : DynamicLimitConfig) :
    ((∀ r ∈ rs, r.1.description.isSome = true) →
      ∀ f ∈ fieldNamesOfJson (keywordResponseJson tools rs cfg),
        f = ["toolId", "method", "description", "inputSchema"]) ∧
    ((∀ kv ∈ tools, kv.2.tool.description.isSome = true) →
      ∀ f ∈ fieldNamesOfJson (vectorResponseJson tools sims cfg),
        f = ["toolId", "method", "description", "inputSchema", "score"]) := by
  constructor
  · intro hdesc f hf
    unfold keywordResponseJson fieldNamesOfJson at hf
    dsimp only at hf
    rw [List.map_map] at hf
    obtain ⟨d, hd, hfe⟩ := List.mem_map.mp hf
    unfold discoverWithKeywordsResult at hd
    obtain ⟨d', hd', hstrip⟩ := List.mem_map.mp hd
    obtain ⟨pr, hpr, hfst⟩ := List.mem_map.mp (mem_of_mem_applyDynamicLimitG hd')
    obtain ⟨r, hr, _, hdescr⟩ := keywordMappedPairs_mem hpr
    have hds : d.description.isSome = true := by
      rw [← hstrip, ← hfst, hdescr]
      exact hdesc r hr
    obtain ⟨s, hs⟩ := Option.isSome_iff_exists.mp hds
    rw [← hfe]
    simp [Function.comp_apply, encPlainDescriptor, encOptDescription, hs]
  · intro hdesc f hf
    unfold vectorResponseJson fieldNamesOfJson at hf
    dsimp only at hf
    rw [List.map_map] at hf
    obtain ⟨d, hd, hfe⟩ := List.mem_map.mp hf
    unfold discoverWithEmbeddingsResult at hd
    obtain ⟨pr, hpr, hfst⟩ := List.mem_map.mp (mem_of_mem_applyDynamicLimitG hd)
    obtain ⟨st, hst, uid, hmem, hdescr⟩ := vectorMappedPairs_mem hpr
    have hds : d.description.isSome = true := by
      rw [← hfst, hdescr]
      exact hdesc (uid, pr.2) hmem
    obtain ⟨s, hs⟩ := Option.isSome_iff_exists.mp hds
    rw [← hfe]
    simp [Function.comp_apply, encScoredDescriptor, encOptDescription, hs]

/-- C2 witness: with a described tool bound, both serialized shapes at a
concrete query — four fields on the keyword path, five on the embeddings
path. -/
theorem c2_response_shape_witness :
    (∀ f ∈ fieldNamesOfJson (keywordResponseJson
        (toolsTableOf [⟨⟨some ['d'], JVal.jobj []⟩, ⟨3⟩, ['s'], ['a'], ['u', '1']⟩])
        [] ⟨10, 1, 0⟩),
      f = ["toolId", "method", "description", "inputSchema"]) ∧
    (∀ f ∈ fieldNamesOfJson (vectorResponseJson
        (toolsTableOf [⟨⟨some ['d'], JVal.jobj []⟩, ⟨3⟩, ['s'], ['a'], ['u', '1']⟩])
        [(['u', '1'], 1)] ⟨10, 1, 0⟩),
      f = ["toolId", "method", "description", "inputSchema", "score"]) := by
  have h := c2_response_shape_amended
    (toolsTableOf [⟨⟨some ['d'], JVal.jobj []⟩, ⟨3⟩, ['s'], ['a'], ['u', '1']⟩])
    [] [(['u', '1'], 1)] ⟨10, 1, 0⟩
  exact ⟨h.1 (by simp), h.2 (by decide)⟩
